import Mathlib

/-!
Shallow embedding of the n-body simulator in `main.cpp` (598APE-HW3).

The program state is an array of `Planet` records (mass, position,
velocity).  `next` advances the simulation one timestep; `main` parses
two CLI arguments, generates `nplanets` random bodies with the xorshift
RNG, and iterates `next` `timesteps` times.

C `double` arithmetic is modelled over `ℝ`; the 64-bit RNG is modelled
over `ℕ` with explicit `% 2 ^ 64` truncation where the C unsigned
arithmetic wraps.
-/

namespace NBody

/-- The C record: `struct Planet` with `double` mass, position and velocity. -/
structure Planet where
  mass : ℝ
  x : ℝ
  y : ℝ
  vx : ℝ
  vy : ℝ

/-- The xorshift step `randomU64` on the global 64-bit seed.  Each C assignment
stores the value modulo `2 ^ 64`; the function returns the new seed. -/
def randomU64 (seed : ℕ) : ℕ :=
  let s1 := (seed ^^^ (seed <<< 21)) % 2 ^ 64
  let s2 := (s1 ^^^ (s1 >>> 35)) % 2 ^ 64
  let s3 := (s2 ^^^ (s2 <<< 4)) % 2 ^ 64
  s3

/-- The integer computed inside `randomDouble`: two draws of `randomU64`,
each truncated to its top 26 bits, combined as `(next << 27) + next2`.
Returns the combined numerator together with the seed after both draws. -/
def randomDoubleNum (seed : ℕ) : ℕ × ℕ :=
  let n1 := randomU64 seed
  let hi := n1 >>> (64 - 26)
  let n2 := randomU64 n1
  let lo := n2 >>> (64 - 26)
  ((hi <<< 27) + lo, n2)

/-- The draw `randomDouble`: the combined 53-bit integer divided by `2 ^ 53`,
paired with the new seed state. -/
noncomputable def randomDouble (seed : ℕ) : ℝ × ℕ :=
  (((randomDoubleNum seed).1 : ℝ) / 2 ^ 53, (randomDoubleNum seed).2)

/-- The timestep `dt = 0.001`, set in `main`. -/
noncomputable def dt : ℝ := 0.001

/-- The softened squared distance `dx*dx + dy*dy + 0.0001` for the ordered pair. -/
noncomputable def distSqr (pi pj : Planet) : ℝ :=
  (pj.x - pi.x) * (pj.x - pi.x) + (pj.y - pi.y) * (pj.y - pi.y) + 0.0001

/-- The quantity `invDist = planets[i].mass * planets[j].mass / sqrt(distSqr)`. -/
noncomputable def invDist (pi pj : Planet) : ℝ :=
  pi.mass * pj.mass / Real.sqrt (distSqr pi pj)

/-- The cube `invDist3 = invDist * invDist * invDist`. -/
noncomputable def invDist3 (pi pj : Planet) : ℝ :=
  invDist pi pj * invDist pi pj * invDist pi pj

/-- The `j`-th increment to `nextplanets[i].vx`: `dt * dx * invDist3`. -/
noncomputable def dvx (pi pj : Planet) : ℝ :=
  dt * (pj.x - pi.x) * invDist3 pi pj

/-- The `j`-th increment to `nextplanets[i].vy`: `dt * dy * invDist3`. -/
noncomputable def dvy (pi pj : Planet) : ℝ :=
  dt * (pj.y - pi.y) * invDist3 pi pj

/-- Body `i` of the output of one call of `next`: the inner `j`-loop
accumulates the velocity increments onto the copied velocity, then the
position is advanced by `dt` times the fully accumulated new velocity. -/
noncomputable def stepBody (n : ℕ) (planets : Fin n → Planet) (i : Fin n) : Planet :=
  let v := (List.finRange n).foldl
    (fun v j => (v.1 + dvx (planets i) (planets j), v.2 + dvy (planets i) (planets j)))
    ((planets i).vx, (planets i).vy)
  { mass := (planets i).mass
    x := (planets i).x + dt * v.1
    y := (planets i).y + dt * v.2
    vx := v.1
    vy := v.2 }

/-- One timestep, the function `next`.  Every field of `nextplanets[i]` is computed
from the input array `planets` (the previous snapshot) only. -/
noncomputable def next (n : ℕ) (planets : Fin n → Planet) : Fin n → Planet :=
  fun i => stepBody n planets i

/-- The outer `i`-loop of `next` made explicit: `nextplanets` starts as a
copy of `planets`, and the bodies listed in `order` are finalized one at
a time, each write touching only its own slot. -/
noncomputable def nextInOrder (n : ℕ) (planets : Fin n → Planet)
    (order : List (Fin n)) : Fin n → Planet :=
  order.foldl (fun acc i => Function.update acc i (stepBody n planets i)) planets

/-- The accumulated new x-velocity of body `i` when the inner loop skips `j = i`. -/
noncomputable def noSelfVX (n : ℕ) (p : Fin n → Planet) (i : Fin n) : ℝ :=
  (p i).vx + ∑ j ∈ Finset.univ.erase i, dvx (p i) (p j)

/-- The accumulated new y-velocity of body `i` when the inner loop skips `j = i`. -/
noncomputable def noSelfVY (n : ℕ) (p : Fin n → Planet) (i : Fin n) : ℝ :=
  (p i).vy + ∑ j ∈ Finset.univ.erase i, dvy (p i) (p j)

/-- Variant of `next` with the self pair `j = i` omitted from every inner loop. -/
noncomputable def nextNoSelf (n : ℕ) (p : Fin n → Planet) : Fin n → Planet :=
  fun i =>
    { mass := (p i).mass
      x := (p i).x + dt * noSelfVX n p i
      y := (p i).y + dt * noSelfVY n p i
      vx := noSelfVX n p i
      vy := noSelfVY n p i }

/-- New x-velocity of body `i` in the symmetric-force variant: each
unordered pair is evaluated once; body `i` adds the increments of the
pairs in which it is the smaller index and subtracts the mirrored
(equal-and-opposite) increments of the pairs in which it is the larger. -/
noncomputable def symVX (n : ℕ) (p : Fin n → Planet) (i : Fin n) : ℝ :=
  (p i).vx
    + ∑ j ∈ Finset.univ.filter (fun j => i < j), dvx (p i) (p j)
    - ∑ j ∈ Finset.univ.filter (fun j => j < i), dvx (p j) (p i)

/-- New y-velocity of body `i` in the symmetric-force variant. -/
noncomputable def symVY (n : ℕ) (p : Fin n → Planet) (i : Fin n) : ℝ :=
  (p i).vy
    + ∑ j ∈ Finset.univ.filter (fun j => i < j), dvy (p i) (p j)
    - ∑ j ∈ Finset.univ.filter (fun j => j < i), dvy (p j) (p i)

/-- Symmetric-force variant of `next`: each unordered pair of distinct bodies with
`i < j` is computed once and applied with opposite signs to both bodies. -/
noncomputable def nextSym (n : ℕ) (p : Fin n → Planet) : Fin n → Planet :=
  fun i =>
    { mass := (p i).mass
      x := (p i).x + dt * symVX n p i
      y := (p i).y + dt * symVY n p i
      vx := symVX n p i
      vy := symVY n p i }

/-- The raw pairwise force magnitude term of the spec,
`mass_i * mass_j / distSq^1.5` (stated for the symmetry property; the
code folds the cube of the mass product into `invDist3`). -/
noncomputable def rawForceMag (pi pj : Planet) : ℝ :=
  pi.mass * pj.mass / distSqr pi pj ^ (1.5 : ℝ)

/-- The spatial scale factor `pow(1 + nplanets, 0.4)` of the generator. -/
noncomputable def scale (n : ℕ) : ℝ := ((1 : ℝ) + n) ^ (0.4 : ℝ)

/-- One body of the initialization loop in `main`, parameterized by the
five `randomDouble` draws it consumes (mass, x, y, vx, vy in that order). -/
noncomputable def initBody (n : ℕ) (r1 r2 r3 r4 r5 : ℝ) : Planet :=
  { mass := r1 * 10 + 0.2
    x := (r2 - 0.5) * 100 * scale n
    y := (r3 - 0.5) * 100 * scale n
    vx := r4 * 5 - 2.5
    vy := r5 * 5 - 2.5 }

/-- One iteration of the initialization loop, drawing the five
`randomDouble` values from the threaded seed. -/
noncomputable def genPlanet (n : ℕ) (seed : ℕ) : Planet × ℕ :=
  let d1 := randomDouble seed
  let d2 := randomDouble d1.2
  let d3 := randomDouble d2.2
  let d4 := randomDouble d3.2
  let d5 := randomDouble d4.2
  (initBody n d1.1 d2.1 d3.1 d4.1 d5.1, d5.2)

/-- The full initialization loop: `k` bodies generated in order, the seed
threaded through (the C code mutates one global seed). -/
noncomputable def genPlanets (n : ℕ) : ℕ → ℕ → List Planet × ℕ
  | 0, seed => ([], seed)
  | k + 1, seed =>
    let g := genPlanet n seed
    let rest := genPlanets n k g.2
    (g.1 :: rest.1, rest.2)

/-- The initial state of a run: `n` generated bodies, read as an array. -/
noncomputable def initState (n : ℕ) (seed : ℕ) : Fin n → Planet :=
  fun i => ((genPlanets n n seed).1).getD i (initBody n 0 0 0 0 0)

/-- The driver loop of `main`: the generator followed by `timesteps`
iterations of `next`. -/
noncomputable def runSim (seed n timesteps : ℕ) : Fin n → Planet :=
  (next n)^[timesteps] (initState n seed)

/-- The argument check of `main`: the usage message is printed and the
program exits with status 1 exactly when `argc < 2`.  `argc` counts the
program name itself, so `argc = 1 + number of positional arguments`. -/
def printsUsage (argc : ℕ) : Bool := argc < 2

/-! ### Helper lemmas -/

lemma foldl_pair_add {α : Type} (l : List α) (f g : α → ℝ) (a b : ℝ) :
    l.foldl (fun v j => (v.1 + f j, v.2 + g j)) (a, b) =
      (a + (l.map f).sum, b + (l.map g).sum) := by
  induction l generalizing a b with
  | nil => simp
  | cons x xs ih => simp [ih, add_assoc]

lemma stepBody_def (n : ℕ) (p : Fin n → Planet) (i : Fin n) :
    stepBody n p i =
      { mass := (p i).mass
        x := (p i).x + dt * ((p i).vx + ∑ j, dvx (p i) (p j))
        y := (p i).y + dt * ((p i).vy + ∑ j, dvy (p i) (p j))
        vx := (p i).vx + ∑ j, dvx (p i) (p j)
        vy := (p i).vy + ∑ j, dvy (p i) (p j) } := by
  unfold stepBody
  rw [foldl_pair_add]
  simp [Fin.sum_univ_def]

/-! ### Theorems -/

/-- C1: one call of `next` gives body `i` the velocity
`v_i + ∑ j, dt * dx * invDist3` (the sum ranging over all bodies `j`,
with `dx = x_j - x_i`, `invDist = m_i * m_j / sqrt(dx² + dy² + 1e-4)`,
`invDist3 = invDist³`), and the position `x_i + dt * v_i_new` computed
from the fully accumulated new velocity (semi-implicit Euler). -/
theorem next_semi_implicit_euler (n : ℕ) (p : Fin n → Planet) (i : Fin n) :
    (next n p i).vx = (p i).vx + ∑ j, dt * ((p j).x - (p i).x) * invDist3 (p i) (p j)
  ∧ (next n p i).vy = (p i).vy + ∑ j, dt * ((p j).y - (p i).y) * invDist3 (p i) (p j)
  ∧ (next n p i).x = (p i).x + dt * (next n p i).vx
  ∧ (next n p i).y = (p i).y + dt * (next n p i).vy := by
  simp [next, stepBody_def, dvx, dvy]

lemma foldl_update_apply {n : ℕ} (order : List (Fin n)) (g : Fin n → Planet)
    (init : Fin n → Planet) (k : Fin n) :
    (order.foldl (fun acc i => Function.update acc i (g i)) init) k =
      if k ∈ order then g k else init k := by
  induction order generalizing init with
  | nil => simp
  | cons a rest ih =>
    simp only [List.foldl_cons, ih, List.mem_cons]
    by_cases hk : k ∈ rest
    · simp [hk]
    · by_cases hka : k = a
      · subst hka
        simp [hk]
      · simp [hk, hka, Function.update_noteq hka]

/-- An example two-body configuration, for instantiating theorems. -/
def pEx : Fin 2 → Planet := fun _ => ⟨1, 0, 0, 0, 0⟩

/-- C2: each output body of one step is a function of the previous
snapshot and its own index alone, so processing the bodies of one
timestep in any permuted order produces exactly the state produced in
index order (which is `next`). -/
theorem next_snapshot_order_independent (n : ℕ) (p : Fin n → Planet)
    (order : List (Fin n)) (h : order.Perm (List.finRange n)) :
    nextInOrder n p order = next n p := by
  funext k
  have hk : k ∈ order := h.mem_iff.2 (List.mem_finRange k)
  rw [nextInOrder, foldl_update_apply, if_pos hk]
  rfl

/-- Witness for C2: the two bodies of a concrete state processed in the
reversed order [1, 0] give the state `next` produces. -/
theorem next_snapshot_order_independent_witness :
    nextInOrder 2 pEx [1, 0] = next 2 pEx :=
  next_snapshot_order_independent 2 pEx [1, 0] (by decide)

lemma distSqr_comm (pi pj : Planet) : distSqr pi pj = distSqr pj pi := by
  unfold distSqr
  ring

lemma invDist3_comm (pi pj : Planet) : invDist3 pi pj = invDist3 pj pi := by
  unfold invDist3 invDist
  rw [distSqr_comm, mul_comm pi.mass]

lemma dvx_antisymm (pi pj : Planet) : dvx pi pj = -dvx pj pi := by
  unfold dvx
  rw [invDist3_comm]
  ring

lemma dvy_antisymm (pi pj : Planet) : dvy pi pj = -dvy pj pi := by
  unfold dvy
  rw [invDist3_comm]
  ring

lemma sum_split_lt {n : ℕ} (i : Fin n) (f : Fin n → ℝ) (hfi : f i = 0) :
    ∑ j, f j = (∑ j ∈ Finset.univ.filter (fun j => i < j), f j)
             + ∑ j ∈ Finset.univ.filter (fun j => j < i), f j := by
  have he : ∑ j ∈ Finset.univ.erase i, f j = ∑ j, f j :=
    Finset.sum_erase _ hfi
  rw [← he,
    ← Finset.sum_filter_add_sum_filter_not (Finset.univ.erase i) (fun j => i < j) f]
  congr 1
  · congr 1
    ext j
    simp only [Finset.mem_filter, Finset.mem_erase, Finset.mem_univ, and_true,
      true_and, Fin.lt_def, ← Fin.val_ne_iff]
    omega
  · congr 1
    ext j
    simp only [Finset.mem_filter, Finset.mem_erase, Finset.mem_univ, and_true,
      true_and, Fin.lt_def, ← Fin.val_ne_iff]
    omega

lemma sym_sum_eq {n : ℕ} (i : Fin n) (F : Fin n → Fin n → ℝ)
    (hanti : ∀ a b, F a b = -F b a) :
    (∑ j ∈ Finset.univ.filter (fun j => i < j), F i j)
      - ∑ j ∈ Finset.univ.filter (fun j => j < i), F j i
    = ∑ j, F i j := by
  have hself : F i i = 0 := by
    have := hanti i i
    linarith
  rw [sum_split_lt i (fun j => F i j) hself]
  have h2 : ∑ j ∈ Finset.univ.filter (fun j => j < i), F j i
      = -∑ j ∈ Finset.univ.filter (fun j => j < i), F i j := by
    rw [← Finset.sum_neg_distrib]
    exact Finset.sum_congr rfl fun j _ => hanti j i
  rw [h2]
  ring

/-- C3: the raw pairwise force magnitude `m_i * m_j / distSq^1.5` is
symmetric under exchanging the two bodies, and the symmetric-force
variant of the step — each unordered pair computed once, applied with
equal-and-opposite signs — produces exactly the state of the brute-force
double loop `next`. -/
theorem symmetric_force_equivalence :
    (∀ pi pj : Planet, rawForceMag pi pj = rawForceMag pj pi)
  ∧ ∀ (n : ℕ) (p : Fin n → Planet), nextSym n p = next n p := by
  constructor
  · intro pi pj
    unfold rawForceMag
    rw [distSqr_comm, mul_comm pi.mass]
  · intro n p
    funext i
    have hx : symVX n p i = (p i).vx + ∑ j, dvx (p i) (p j) := by
      unfold symVX
      rw [add_sub_assoc,
        sym_sum_eq i (fun a b => dvx (p a) (p b)) fun a b => dvx_antisymm (p a) (p b)]
    have hy : symVY n p i = (p i).vy + ∑ j, dvy (p i) (p j) := by
      unfold symVY
      rw [add_sub_assoc,
        sym_sum_eq i (fun a b => dvy (p a) (p b)) fun a b => dvy_antisymm (p a) (p b)]
    show nextSym n p i = stepBody n p i
    rw [stepBody_def]
    unfold nextSym
    rw [hx, hy]

/-- C5: the softened squared distance is at least `1e-4`, hence strictly
positive, for every pair of bodies — including coincident ones — so the
square root in `invDist` is strictly positive and never a zero divisor. -/
theorem softening_no_singularity (pi pj : Planet) :
    (0.0001 : ℝ) ≤ distSqr pi pj
  ∧ 0 < distSqr pi pj
  ∧ 0 < Real.sqrt (distSqr pi pj)
  ∧ Real.sqrt (distSqr pi pj) ≠ 0 := by
  have h1 : (0.0001 : ℝ) ≤ distSqr pi pj := by
    unfold distSqr
    nlinarith [mul_self_nonneg (pj.x - pi.x), mul_self_nonneg (pj.y - pi.y)]
  have h2 : 0 < distSqr pi pj := by linarith
  have h3 : 0 < Real.sqrt (distSqr pi pj) := Real.sqrt_pos.2 h2
  exact ⟨h1, h2, h3, ne_of_gt h3⟩

/-- An example planet with positive mass, for instantiating theorems. -/
def pOne : Planet := ⟨1, 0, 0, 0, 0⟩

/-- C6: the self pair `j = i` adds exactly zero to both velocity
components (its `dx` and `dy` vanish), so `next` coincides with the
variant whose inner loop omits the self pair. -/
theorem self_pair_contributes_zero :
    (∀ pi : Planet, 0 < pi.mass → dvx pi pi = 0 ∧ dvy pi pi = 0)
  ∧ ∀ (n : ℕ) (p : Fin n → Planet), nextNoSelf n p = next n p := by
  constructor
  · intro pi _
    constructor
    · unfold dvx
      ring
    · unfold dvy
      ring
  · intro n p
    funext i
    have hx : noSelfVX n p i = (p i).vx + ∑ j, dvx (p i) (p j) := by
      have hsum := Finset.add_sum_erase Finset.univ
        (fun j => dvx (p i) (p j)) (Finset.mem_univ i)
      have hself : dvx (p i) (p i) = 0 := by unfold dvx; ring
      unfold noSelfVX
      rw [← hsum]
      simp only [hself, zero_add]
    have hy : noSelfVY n p i = (p i).vy + ∑ j, dvy (p i) (p j) := by
      have hsum := Finset.add_sum_erase Finset.univ
        (fun j => dvy (p i) (p j)) (Finset.mem_univ i)
      have hself : dvy (p i) (p i) = 0 := by unfold dvy; ring
      unfold noSelfVY
      rw [← hsum]
      simp only [hself, zero_add]
    show nextNoSelf n p i = stepBody n p i
    rw [stepBody_def]
    unfold nextNoSelf
    rw [hx, hy]

/-- Witness for C6 at a concrete body of mass `1 > 0`. -/
theorem self_pair_contributes_zero_witness :
    dvx pOne pOne = 0 ∧ dvy pOne pOne = 0 :=
  self_pair_contributes_zero.1 pOne (by norm_num [pOne])

/-- C4: the argument check of `main` is `argc < 2`.  With zero positional
arguments (`argc = 0 + 1`) the usage message is printed and the program
exits with status 1, but with one positional argument (`argc = 1 + 1`)
the check fails, no usage message is produced, and execution falls
through to `atoi(argv[2])` — contradicting the claim that one missing
argument also produces the usage path. -/
theorem usage_check_misses_one_arg :
    printsUsage (0 + 1) = true ∧ printsUsage (1 + 1) = false := by
  decide

/-- C10: the integer built inside `randomDouble` from two 26-bit draws
is below `2^53`, so the returned quotient lies in `[0, 1)` for every
seed state. -/
theorem randomDouble_in_unit_interval (seed : ℕ) :
    (randomDoubleNum seed).1 < 2 ^ 53
  ∧ 0 ≤ (randomDouble seed).1
  ∧ (randomDouble seed).1 < 1 := by
  have hb : ∀ s : ℕ, randomU64 s < 2 ^ 64 := by
    intro s
    unfold randomU64
    exact Nat.mod_lt _ (by norm_num)
  have h26 : ∀ s : ℕ, randomU64 s >>> (64 - 26) < 2 ^ 26 := by
    intro s
    have h := hb s
    rw [Nat.shiftRight_eq_div_pow]
    norm_num at h ⊢
    omega
  have hfst : (randomDoubleNum seed).1
      = ((randomU64 seed >>> (64 - 26)) <<< 27)
        + (randomU64 (randomU64 seed) >>> (64 - 26)) := rfl
  have hk : (randomDoubleNum seed).1 < 2 ^ 53 := by
    rw [hfst, Nat.shiftLeft_eq]
    have ha := h26 seed
    have hc := h26 (randomU64 seed)
    norm_num at ha hc ⊢
    omega
  have hpow : (0 : ℝ) < 2 ^ 53 := by norm_num
  refine ⟨hk, ?_, ?_⟩
  · show (0 : ℝ) ≤ ((randomDoubleNum seed).1 : ℝ) / 2 ^ 53
    exact div_nonneg (Nat.cast_nonneg _) hpow.le
  · show ((randomDoubleNum seed).1 : ℝ) / 2 ^ 53 < 1
    rw [div_lt_one hpow]
    exact_mod_cast hk

/-- The ranges claimed for one generated body: mass in `[0.2, 10.2)`,
coordinates in `[-50s, 50s)` for `s = scale n`, velocities in `[-2.5, 2.5)`. -/
def bodyInRanges (n : ℕ) (b : Planet) : Prop :=
  ((0.2 : ℝ) ≤ b.mass ∧ b.mass < 10.2)
  ∧ (-(50 * scale n) ≤ b.x ∧ b.x < 50 * scale n)
  ∧ (-(50 * scale n) ≤ b.y ∧ b.y < 50 * scale n)
  ∧ ((-2.5 : ℝ) ≤ b.vx ∧ b.vx < 2.5)
  ∧ ((-2.5 : ℝ) ≤ b.vy ∧ b.vy < 2.5)

lemma scale_pos (n : ℕ) : 0 < scale n := by
  unfold scale
  exact Real.rpow_pos_of_pos (by positivity) _

lemma coord_bounds {s v : ℝ} (hs : 0 < s) (hv0 : 0 ≤ v) (hv1 : v < 1) :
    -(50 * s) ≤ (v - 0.5) * 100 * s ∧ (v - 0.5) * 100 * s < 50 * s := by
  constructor
  · have h : (-50 : ℝ) ≤ (v - 0.5) * 100 := by linarith
    calc -(50 * s) = -50 * s := by ring
      _ ≤ (v - 0.5) * 100 * s := mul_le_mul_of_nonneg_right h hs.le
  · have h : (v - 0.5) * 100 < 50 := by linarith
    exact mul_lt_mul_of_pos_right h hs

/-- C7: if each of the five underlying random draws lies in `[0, 1)`,
the body built by one iteration of the initialization loop has mass in
`[0.2, 10.2)`, coordinates in `[-50s, 50s)` with `s = (1+n)^0.4`, and
velocities in `[-2.5, 2.5)`. -/
theorem generator_ranges (n : ℕ) (r1 r2 r3 r4 r5 : ℝ) (hn : 1 ≤ n)
    (h1 : 0 ≤ r1 ∧ r1 < 1) (h2 : 0 ≤ r2 ∧ r2 < 1) (h3 : 0 ≤ r3 ∧ r3 < 1)
    (h4 : 0 ≤ r4 ∧ r4 < 1) (h5 : 0 ≤ r5 ∧ r5 < 1) :
    bodyInRanges n (initBody n r1 r2 r3 r4 r5) := by
  have hs := scale_pos n
  obtain ⟨h1a, h1b⟩ := h1
  obtain ⟨h4a, h4b⟩ := h4
  obtain ⟨h5a, h5b⟩ := h5
  unfold bodyInRanges initBody
  refine ⟨⟨by linarith, by linarith⟩, ?_, ?_, ⟨by linarith, by linarith⟩,
    ⟨by linarith, by linarith⟩⟩
  · exact coord_bounds hs h2.1 h2.2
  · exact coord_bounds hs h3.1 h3.2

/-- Witness for C7 at `n = 1` with all five draws equal to `0`. -/
theorem generator_ranges_witness :
    bodyInRanges 1 (initBody 1 0 0 0 0 0) :=
  generator_ranges 1 0 0 0 0 0 (by norm_num) (by norm_num) (by norm_num)
    (by norm_num) (by norm_num) (by norm_num)

/-- C8: initialization gives every body mass at least `0.2`, and `next`
copies every body's mass unchanged, so strict positivity of all masses
is an invariant preserved by every step. -/
theorem mass_positive_invariant :
    (∀ n seed : ℕ, (0.2 : ℝ) ≤ ((genPlanet n seed).1).mass)
  ∧ (∀ (n : ℕ) (p : Fin n → Planet) (i : Fin n), (next n p i).mass = (p i).mass)
  ∧ ∀ (n : ℕ) (p : Fin n → Planet),
      (∀ i, 0 < (p i).mass) → ∀ i, 0 < (next n p i).mass := by
  have hmass : ∀ (n : ℕ) (p : Fin n → Planet) (i : Fin n),
      (next n p i).mass = (p i).mass := by
    intro n p i
    show (stepBody n p i).mass = (p i).mass
    rw [stepBody_def]
  refine ⟨?_, hmass, ?_⟩
  · intro n seed
    have hr : ((genPlanet n seed).1).mass = (randomDouble seed).1 * 10 + 0.2 := rfl
    have h0 : (0 : ℝ) ≤ (randomDouble seed).1 :=
      (randomDouble_in_unit_interval seed).2.1
    rw [hr]
    linarith
  · intro n p hp i
    rw [hmass]
    exact hp i

/-- An example one-body state with positive mass. -/
def pArr1 : Fin 1 → Planet := fun _ => pOne

/-- Witness for C8: positivity is preserved on a concrete one-body state. -/
theorem mass_positive_invariant_witness :
    0 < (next 1 pArr1 0).mass :=
  mass_positive_invariant.2.2 1 pArr1 (fun _ => by norm_num [pArr1, pOne]) 0

/-- C9: the generator followed by the integrator loop is a pure function
of the seed, the body count and the timestep count: two runs with equal
seeds and equal timestep counts produce identical trajectories at every
intermediate step and an identical final state. -/
theorem run_deterministic (seed1 seed2 n t1 t2 : ℕ)
    (hs : seed1 = seed2) (ht : t1 = t2) :
    (∀ k : ℕ, (next n)^[k] (initState n seed1) = (next n)^[k] (initState n seed2))
  ∧ runSim seed1 n t1 = runSim seed2 n t2 := by
  subst hs
  subst ht
  exact ⟨fun _ => rfl, rfl⟩

/-- Witness for C9 at the program's initial seed `100`, two bodies,
three timesteps. -/
theorem run_deterministic_witness :
    runSim 100 2 3 = runSim 100 2 3 :=
  (run_deterministic 100 100 2 3 3 rfl rfl).2

end NBody
